import Mathlib

/-!
Verification development for the automata-manager repository.

The Python sources are shallowly embedded: sets and dicts become lists and
association lists (membership-based semantics), state identifiers are strings
(the DFA produced by subset construction uses `Sum` to mix plain states with
composite frozenset states, mirroring Python's cross-type equality, which is
always `False` between a `str` and a `frozenset`), and every raising code path
returns `Except`.  Worklist loops are given explicit fuel large enough for the
loop to run to completion (the Python loops terminate for the same reasons the
fuel bounds are sufficient); all definitions remain executable, so concrete
runs are settled by `decide`/`rfl`.
-/

set_option maxRecDepth 4096

deriving instance DecidableEq for Except

/-- Errors raised by `AutomatonBase._validate_automaton` and `DFA._validate_dfa`,
one constructor per `raise ValueError` site, in source order. -/
inductive VErr where
  | invalidStartState
  | invalidAcceptStates
  | undeclaredState
  | undeclaredSymbol
  | nextStatesUndefined
  | unusedStates
  | unreachableStates
  | circularEpsilon
  | nondeterministic
deriving DecidableEq

/-- Errors raised during `validate_string`: the unknown-symbol `ValueError`,
the `KeyError` from an unguarded dict lookup, and the `StopIteration` from
`next(iter(s))` on an empty set. -/
inductive RunErr where
  | unknownSymbol (c : String)
  | keyError
  | stopIteration
deriving DecidableEq

/-- Errors raised during regex construction: the two `_validate_pattern`
errors, the final stack-shape error of `_thompson_construct`, the `IndexError`
from `list.pop()` / `list(...)[0]` on an empty list, and `ValueError`s escaping
from an `NFAE(...)` constructor call. -/
inductive RErr where
  | invalidChar
  | emptyPattern
  | invalidPattern
  | indexError
  | automatonError (e : VErr)
deriving DecidableEq

/-- The five structural fields shared by `AutomatonBase` and its subclasses.
Python sets/dicts are lists/association lists with membership semantics. -/
structure Automaton (α : Type) where
  states : List α
  alphabet : List String
  transitions : List (α × List (String × List α))
  start_state : α
  accept_states : List α
deriving DecidableEq

variable {α : Type} [DecidableEq α]

/-- Dictionary lookup, `d.get(k)` / `d[k]`. -/
def alookup : List (α × β) → α → Option β
  | [], _ => none
  | (k, v) :: rest, a => if k = a then some v else alookup rest a

/-- Python set union `s1 | s2` (membership semantics, left-biased order). -/
def unionL (l1 l2 : List α) : List α :=
  l1 ++ l2.filter (fun x => !decide (x ∈ l1))

/-- Python dict assignment `d[k] = v`: replaces the value in place if the key
exists, appends otherwise. -/
def dinsert : List (α × β) → α → β → List (α × β)
  | [], k, v => [(k, v)]
  | (k', v') :: rest, k, v =>
    if k' = k then (k, v) :: rest else (k', v') :: dinsert rest k v

/-- Python dict merge `{**m1, **m2}`: entries of `m2` assigned into `m1`. -/
def dmerge (m1 m2 : List (α × β)) : List (α × β) :=
  m2.foldl (fun acc p => dinsert acc p.1 p.2) m1

/-- Embeds `self.transitions.get(q, {}).get('ε', [])`: the ε-successors of a state. -/
def epsSucc (trans : List (α × List (String × List α))) (q : α) : List α :=
  match alookup trans q with
  | none => []
  | some row =>
    match alookup row "ε" with
    | none => []
    | some l => l

/-- All destination states appearing anywhere in a transition table. -/
def transDests (trans : List (α × List (String × List α))) : List α :=
  (trans.map (fun p => (p.2.map (fun r => r.2)).flatten)).flatten

theorem alookup_mem : ∀ (l : List (α × β)) (k : α) (v : β),
    alookup l k = some v → (k, v) ∈ l := by
  intro l k v h
  induction l with
  | nil => simp [alookup] at h
  | cons p rest ih =>
    rcases p with ⟨k', v'⟩
    by_cases hk : k' = k
    · subst hk
      have hv : v' = v := by simpa [alookup] using h
      subst hv
      exact List.mem_cons_self _ _
    · simp only [alookup, if_neg hk] at h
      exact List.mem_cons_of_mem _ (ih h)

/-- One pop of the `_epsilon_closure` worklist: the popped state's successors
are folded one at a time, each new state being added to both the closure and
the stack (`if next_state not in closure: closure.add(...); stack.append(...)`).
The fuel counts iterations of the source's `while stack:` loop. -/
def closureLoop (succ : α → List α) : Nat → List α → List α → List α
  | 0, _, closure => closure
  | _ + 1, [], closure => closure
  | fuel + 1, current :: rest, closure =>
    let acc := (succ current).foldl
      (fun acc y => if y ∈ acc.1 then acc else (acc.1 ++ [y], acc.2 ++ [y]))
      (closure, rest)
    closureLoop succ fuel acc.2 acc.1

/-- Embeds `NFAE._epsilon_closure(states)`: worklist traversal of ε-transitions.
The fuel bound dominates the loop's iteration count (each iteration either
pops without growing the closure or adds fresh states drawn from
`transDests`). -/
def epsilon_closure (trans : List (α × List (String × List α))) (S : List α) :
    List α :=
  closureLoop (epsSucc trans) (S.length + (transDests trans).length + 1) S S

/-- The new states appended by one inner successor fold, relative to a given
closure: successors not yet in the closure, deduplicated left to right. -/
def newsOf : List α → List α → List α
  | [], _ => []
  | y :: ys, closure =>
    if y ∈ closure then newsOf ys closure else y :: newsOf ys (closure ++ [y])

theorem foldl_pair_eq (l : List α) :
    ∀ (closure rest : List α),
      l.foldl (fun acc y => if y ∈ acc.1 then acc else (acc.1 ++ [y], acc.2 ++ [y]))
        (closure, rest)
      = (closure ++ newsOf l closure, rest ++ newsOf l closure) := by
  induction l with
  | nil => intro closure rest; simp [newsOf]
  | cons y ys ih =>
    intro closure rest
    by_cases hy : y ∈ closure
    · simp [newsOf, hy, ih]
    · simp only [newsOf, hy, if_neg, List.foldl_cons, if_false]
      rw [ih]
      simp [List.append_assoc]

theorem newsOf_subset (l : List α) :
    ∀ closure, ∀ y ∈ newsOf l closure, y ∈ l ∧ y ∉ closure := by
  induction l with
  | nil => intro closure y hy; simp [newsOf] at hy
  | cons a as ih =>
    intro closure y hy
    by_cases ha : a ∈ closure
    · simp only [newsOf, if_pos ha] at hy
      rcases ih closure y hy with ⟨h1, h2⟩
      exact ⟨List.mem_cons_of_mem _ h1, h2⟩
    · simp only [newsOf, if_neg ha] at hy
      rcases List.mem_cons.mp hy with rfl | hy
      · exact ⟨List.mem_cons_self _ _, ha⟩
      · rcases ih (closure ++ [a]) y hy with ⟨h1, h2⟩
        refine ⟨List.mem_cons_of_mem _ h1, fun hc => h2 ?_⟩
        exact List.mem_append_left _ hc

theorem newsOf_nodup (l : List α) : ∀ closure, (newsOf l closure).Nodup := by
  induction l with
  | nil => intro _; simp [newsOf]
  | cons a as ih =>
    intro closure
    by_cases ha : a ∈ closure
    · simpa [newsOf, ha] using ih closure
    · simp only [newsOf, if_neg ha]
      refine List.Nodup.cons (fun hc => ?_) (ih (closure ++ [a]))
      exact (newsOf_subset as (closure ++ [a]) a hc).2
          (List.mem_append_right _ (List.mem_singleton.mpr rfl))

theorem newsOf_complete (l : List α) :
    ∀ closure, ∀ y ∈ l, y ∈ closure ++ newsOf l closure := by
  induction l with
  | nil => intro closure y hy; simp at hy
  | cons a as ih =>
    intro closure y hy
    by_cases ha : a ∈ closure
    · simp only [newsOf, if_pos ha]
      rcases List.mem_cons.mp hy with rfl | hy
      · exact List.mem_append_left _ ha
      · exact ih closure y hy
    · simp only [newsOf, if_neg ha]
      rcases List.mem_cons.mp hy with rfl | hy
      · exact List.mem_append_right _ (List.mem_cons_self _ _)
      · have hmem := ih (closure ++ [a]) y hy
        rcases List.mem_append.mp hmem with hca | hn
        · rcases List.mem_append.mp hca with hc | hA
          · exact List.mem_append_left _ hc
          · have hA' : y = a := List.mem_singleton.mp hA
            subst hA'
            exact List.mem_append_right _ (List.mem_cons_self _ _)
        · exact List.mem_append_right _ (List.mem_cons_of_mem _ hn)

theorem closureLoop_grows (succ : α → List α) :
    ∀ (fuel : Nat) (stack closure : List α),
      ∀ x ∈ closure, x ∈ closureLoop succ fuel stack closure := by
  intro fuel
  induction fuel with
  | zero => intro stack closure x hx; simpa [closureLoop] using hx
  | succ fuel ih =>
    intro stack closure x hx
    cases stack with
    | nil => simpa [closureLoop] using hx
    | cons current rest =>
      simp only [closureLoop, foldl_pair_eq]
      exact ih _ _ x (List.mem_append_left _ hx)

theorem closureLoop_sound (succ : α → List α) (P : α → Prop)
    (hstep : ∀ x, P x → ∀ y ∈ succ x, P y) :
    ∀ (fuel : Nat) (stack closure : List α),
      (∀ x ∈ closure, P x) → (∀ x ∈ stack, P x) →
      ∀ x ∈ closureLoop succ fuel stack closure, P x := by
  intro fuel
  induction fuel with
  | zero => intro stack closure hc _ x hx; exact hc x (by simpa [closureLoop] using hx)
  | succ fuel ih =>
    intro stack closure hc hs x hx
    cases stack with
    | nil => exact hc x (by simpa [closureLoop] using hx)
    | cons current rest =>
      simp only [closureLoop, foldl_pair_eq] at hx
      have hnews : ∀ y ∈ newsOf (succ current) closure, P y := by
        intro y hy
        rcases newsOf_subset _ _ y hy with ⟨h1, _⟩
        exact hstep current (hs current (List.mem_cons_self _ _)) y h1
      refine ih _ _ ?_ ?_ x hx
      · intro z hz
        rcases List.mem_append.mp hz with hz | hz
        · exact hc z hz
        · exact hnews z hz
      · intro z hz
        rcases List.mem_append.mp hz with hz | hz
        · exact hs z (List.mem_cons_of_mem _ hz)
        · exact hnews z hz

/-- Potential of the closure worklist: pending stack entries plus the
undiscovered part of the destination universe. -/
def closurePot (univ : List α) (stack closure : List α) : Nat :=
  stack.length + (univ.toFinset.filter (fun x => x ∉ closure)).card

theorem closureLoop_closed (succ : α → List α) (univ : List α)
    (hU : ∀ x, ∀ y ∈ succ x, y ∈ univ) :
    ∀ (fuel : Nat) (stack closure : List α),
      closurePot univ stack closure ≤ fuel →
      (∀ x ∈ stack, x ∈ closure) →
      (∀ x ∈ closure, x ∉ stack → ∀ y ∈ succ x, y ∈ closure) →
      ∀ x ∈ closureLoop succ fuel stack closure, ∀ y ∈ succ x,
        y ∈ closureLoop succ fuel stack closure := by
  intro fuel
  induction fuel with
  | zero =>
    intro stack closure hpot hss hinv x hx y hy
    have hstack : stack = [] := by
      have : stack.length = 0 := by
        unfold closurePot at hpot
        omega
      exact List.length_eq_zero.mp this
    subst hstack
    simp only [closureLoop] at hx ⊢
    exact hinv x hx (by simp) y hy
  | succ fuel ih =>
    intro stack closure hpot hss hinv x hx y hy
    cases stack with
    | nil =>
      simp only [closureLoop] at hx ⊢
      exact hinv x hx (by simp) y hy
    | cons current rest =>
      simp only [closureLoop, foldl_pair_eq] at hx ⊢
      set news := newsOf (succ current) closure with hnews
      have hnewsU : ∀ z ∈ news, z ∈ univ := by
        intro z hz
        exact hU current z (newsOf_subset _ _ z hz).1
      have hnewsNC : ∀ z ∈ news, z ∉ closure := fun z hz => (newsOf_subset _ _ z hz).2
      have hpot' : closurePot univ (rest ++ news) (closure ++ news) ≤ fuel := by
        have hsub : news.toFinset ⊆ univ.toFinset.filter (fun x => x ∉ closure) := by
          intro z hz
          simp only [List.mem_toFinset] at hz
          simp only [Finset.mem_filter, List.mem_toFinset]
          exact ⟨hnewsU z hz, hnewsNC z hz⟩
        have hfilter :
            univ.toFinset.filter (fun x => x ∉ closure ++ news)
              = (univ.toFinset.filter (fun x => x ∉ closure)) \ news.toFinset := by
          ext z
          simp only [Finset.mem_filter, Finset.mem_sdiff, List.mem_append,
            List.mem_toFinset]
          tauto
        have hcard :
            (univ.toFinset.filter (fun x => x ∉ closure ++ news)).card
              = (univ.toFinset.filter (fun x => x ∉ closure)).card - news.length := by
          rw [hfilter, Finset.card_sdiff hsub]
          congr 1
          rw [List.toFinset_card_of_nodup (newsOf_nodup _ _)]
        have hle : news.length ≤ (univ.toFinset.filter (fun x => x ∉ closure)).card := by
          calc news.length = news.toFinset.card :=
                (List.toFinset_card_of_nodup (newsOf_nodup _ _)).symm
            _ ≤ _ := Finset.card_le_card hsub
        simp only [closurePot, List.length_append] at hpot ⊢
        simp only [List.length_cons] at hpot
        omega
      refine ih (rest ++ news) (closure ++ news) hpot' ?_ ?_ x hx y hy
      · intro z hz
        rcases List.mem_append.mp hz with hz | hz
        · exact List.mem_append_left _ (hss z (List.mem_cons_of_mem _ hz))
        · exact List.mem_append_right _ hz
      · intro z hz hzs w hw
        rcases List.mem_append.mp hz with hz | hz
        · by_cases hzc : z = current
          · subst hzc
            exact newsOf_complete _ _ w hw
          · have : z ∉ current :: rest := by
              intro hmem
              rcases List.mem_cons.mp hmem with hmem | hmem
              · exact hzc hmem
              · exact hzs (List.mem_append_left _ hmem)
            exact List.mem_append_left _ (hinv z hz this w hw)
        · exact absurd (List.mem_append_right rest hz) hzs

/-- Reachability through ε-transitions, the specification-level relation
matched by the worklist computation. -/
def EpsReach (trans : List (α × List (String × List α))) (p q : α) : Prop :=
  Relation.ReflTransGen (fun a b => b ∈ epsSucc trans a) p q

theorem epsSucc_subset_transDests (trans : List (α × List (String × List α))) :
    ∀ x, ∀ y ∈ epsSucc trans x, y ∈ transDests trans := by
  intro x y hy
  unfold epsSucc at hy
  rcases hrow : alookup trans x with _ | row
  · simp [hrow] at hy
  · simp only [hrow] at hy
    rcases hl : alookup row "ε" with _ | l
    · simp [hl] at hy
    · simp only [hl] at hy
      have hk := alookup_mem trans x row hrow
      have hs := alookup_mem row "ε" l hl
      unfold transDests
      simp only [List.mem_flatten, List.mem_map]
      refine ⟨(row.map (fun r => r.2)).flatten, ⟨(x, row), hk, rfl⟩, ?_⟩
      simp only [List.mem_flatten, List.mem_map]
      exact ⟨l, ⟨("ε", l), hs, rfl⟩, hy⟩

/-- Membership in the computed ε-closure coincides with ε-reachability from
the seed set. -/
theorem mem_epsilon_closure (trans : List (α × List (String × List α)))
    (S : List α) (q : α) :
    q ∈ epsilon_closure trans S ↔ ∃ p ∈ S, EpsReach trans p q := by
  constructor
  · intro hq
    refine closureLoop_sound (epsSucc trans)
      (fun x => ∃ p ∈ S, EpsReach trans p x) ?_ _ S S ?_ ?_ q hq
    · rintro x ⟨p, hp, hreach⟩ y hy
      exact ⟨p, hp, Relation.ReflTransGen.tail hreach hy⟩
    · intro x hx; exact ⟨x, hx, Relation.ReflTransGen.refl⟩
    · intro x hx; exact ⟨x, hx, Relation.ReflTransGen.refl⟩
  · rintro ⟨p, hp, hreach⟩
    have hclosed := closureLoop_closed (epsSucc trans) (transDests trans)
      (epsSucc_subset_transDests trans)
      (S.length + (transDests trans).length + 1) S S
      (by
        unfold closurePot
        have h1 : (transDests trans).toFinset.card ≤ (transDests trans).length :=
          List.toFinset_card_le _
        have h2 : ((transDests trans).toFinset.filter (fun x => x ∉ S)).card
            ≤ (transDests trans).toFinset.card := Finset.card_filter_le _ _
        omega)
      (fun x hx => hx)
      (fun x hx hxs _ _ => absurd hx hxs)
    have hbase : p ∈ epsilon_closure trans S :=
      closureLoop_grows (epsSucc trans) _ S S p hp
    unfold epsilon_closure at hclosed hbase ⊢
    induction hreach with
    | refl => exact hbase
    | tail _ hstep ih => exact hclosed _ ih _ hstep

/-- All destinations of a state's row, `self.transitions.get(state, {}).values()`
flattened. -/
def rowDestsOf (trans : List (α × List (String × List α))) (s : α) : List α :=
  match alookup trans s with
  | none => []
  | some row => (row.map (fun r => r.2)).flatten

/-- Embeds `AutomatonBase._find_reachable_states`: stack-based traversal that tests
membership at pop time and pushes every successor of a newly visited state.
The fuel counts iterations of the source's `while stack:` loop. -/
def reachLoop (succ : α → List α) : Nat → List α → List α → List α
  | 0, _, reach => reach
  | _ + 1, [], reach => reach
  | fuel + 1, s :: rest, reach =>
    if s ∈ reach then reachLoop succ fuel rest reach
    else reachLoop succ fuel (rest ++ succ s) (reach ++ [s])

def findReachable (A : Automaton α) : List α :=
  reachLoop (rowDestsOf A.transitions)
    (A.states.length + (transDests A.transitions).length + 2)
    [A.start_state] []

/-- Sequential traversal of one state's ε-children inside
`_has_circular_epsilon_transitions.dfs`: stop at the first child reporting a
cycle, threading the shared `visited` set through the calls. -/
def dfsFold (f : α → List α → Bool × List α) : List α → List α → Bool × List α
  | [], visited => (false, visited)
  | y :: ys, visited =>
    let r := f y visited
    if r.1 then (true, r.2) else dfsFold f ys r.2

/-- Embeds `_has_circular_epsilon_transitions.dfs(state, path)`: per-path cycle check
with a shared visited set.  The fuel bounds the recursion depth (the path
grows by a fresh state at each level). -/
def dfsCE (trans : List (α × List (String × List α))) :
    Nat → α → List α → List α → Bool × List α
  | 0, _, _, visited => (false, visited)
  | fuel + 1, s, path, visited =>
    if s ∈ path then (true, visited)
    else if s ∈ visited then (false, visited)
    else
      dfsFold (fun y vis => dfsCE trans fuel y (path ++ [s]) vis)
        (epsSucc trans s) (visited ++ [s])

def ceFuel (A : Automaton α) : Nat :=
  A.states.length + (transDests A.transitions).length + 2

/-- The `for state in self.states: if dfs(state, set())` loop, sharing the
visited set across iterations. -/
def hasCircLoop (trans : List (α × List (String × List α))) (fuel : Nat) :
    List α → List α → Bool
  | [], _ => false
  | s :: ss, visited =>
    let r := dfsCE trans fuel s [] visited
    if r.1 then true else hasCircLoop trans fuel ss r.2

/-- Embeds `AutomatonBase._has_circular_epsilon_transitions`. -/
def hasCircularEps (A : Automaton α) : Bool :=
  hasCircLoop A.transitions (ceFuel A) A.states []

/-- The `used_states` accumulator of `_validate_automaton`: the start state,
the accept states, and every transition destination — sources are not added. -/
def usedStates (A : Automaton α) : List α :=
  A.start_state :: (A.accept_states ++ transDests A.transitions)

/-- Per-row checks of the `for symbol, next_states in transitions.items()`
loop: symbol declared (or ε), destinations declared. -/
def checkRow (states : List α) (alphabet : List String) :
    List (String × List α) → Except VErr Unit
  | [] => .ok ()
  | (sym, dests) :: rest =>
    if sym ∈ alphabet ∨ sym = "ε" then
      if ∀ q ∈ dests, q ∈ states then checkRow states alphabet rest
      else .error .nextStatesUndefined
    else .error .undeclaredSymbol

/-- The `for state, transitions in self.transitions.items()` loop of
`_validate_automaton`. -/
def checkTransitions (states : List α) (alphabet : List String) :
    List (α × List (String × List α)) → Except VErr Unit
  | [] => .ok ()
  | (s, row) :: rest =>
    if s ∈ states then
      match checkRow states alphabet row with
      | .error e => .error e
      | .ok _ => checkTransitions states alphabet rest
    else .error .undeclaredState

/-- Embeds `AutomatonBase._validate_automaton`, checks in source order: start state,
accept states, per-transition structure, unused states, unreachable states,
and (only when ε appears in the alphabet or as a transition key) circular
epsilon transitions. -/
def validateAutomaton (A : Automaton α) : Except VErr Unit :=
  if A.start_state ∈ A.states then
    if ∀ q ∈ A.accept_states, q ∈ A.states then
      match checkTransitions A.states A.alphabet A.transitions with
      | .error e => .error e
      | .ok _ =>
        if ∀ q ∈ A.states, q ∈ usedStates A then
          if ∀ q ∈ A.states, q ∈ findReachable A then
            if "ε" ∈ A.alphabet ∨ ∃ p ∈ A.transitions, ∃ r ∈ p.2, r.1 = "ε" then
              if hasCircularEps A then .error .circularEpsilon else .ok ()
            else .ok ()
          else .error .unreachableStates
        else .error .unusedStates
    else .error .invalidAcceptStates
  else .error .invalidStartState

/-- Embeds `DFA._validate_dfa`: every transition entry holds at most one distinct
destination (`len(next_states) > 1` on a Python set counts distinct members). -/
def checkDeterminism (A : Automaton α) : Except VErr Unit :=
  if ∃ p ∈ A.transitions, ∃ r ∈ p.2, 1 < r.2.dedup.length then
    .error .nondeterministic
  else .ok ()

/-- Constructor of `AutomatonBase` subclasses without extra checks
(`NFA(...)`, `NFAE(...)`): validate, then return the automaton unchanged. -/
def mkAut (A : Automaton α) : Except VErr (Automaton α) :=
  match validateAutomaton A with
  | .error e => .error e
  | .ok _ => .ok A

/-- Embeds `DFA(...)`: base validation followed by the determinism check. -/
def mkDFA (A : Automaton α) : Except VErr (Automaton α) :=
  match validateAutomaton A with
  | .error e => .error e
  | .ok _ =>
    match checkDeterminism A with
    | .error e => .error e
    | .ok _ => .ok A

/-- Union of per-symbol destinations over a set of current states:
`for state in S: if symbol in transitions.get(state, {}): next.update(...)`. -/
def stepSucc (trans : List (α × List (String × List α))) (S : List α)
    (c : String) : List α :=
  (S.map (fun s =>
    match alookup trans s with
    | none => []
    | some row =>
      match alookup row c with
      | none => []
      | some l => l)).flatten

/-- The symbol loop of `NFA.validate_string`, returning the final
current-state set (or the unknown-symbol error). -/
def nfaSets (N : Automaton α) : List α → List String → Except RunErr (List α)
  | S, [] => .ok S
  | S, c :: w =>
    if c ∈ N.alphabet then nfaSets N (stepSucc N.transitions S c) w
    else .error (.unknownSymbol c)

/-- Embeds `NFA.validate_string`: run the symbol loop from `{start_state}`, then
accept iff the final set meets the accept states. -/
def NFA.validate_string (N : Automaton α) (w : List String) :
    Except RunErr Bool :=
  match nfaSets N [N.start_state] w with
  | .error e => .error e
  | .ok S => .ok (S.any (fun q => decide (q ∈ N.accept_states)))

/-- The symbol loop of `NFAE.validate_string`: like the NFA loop but closing
the successor union under ε after each symbol. -/
def nfaeSets (E : Automaton String) :
    List String → List String → Except RunErr (List String)
  | S, [] => .ok S
  | S, c :: w =>
    if c ∈ E.alphabet then
      nfaeSets E (epsilon_closure E.transitions (stepSucc E.transitions S c)) w
    else .error (.unknownSymbol c)

/-- Embeds `NFAE.validate_string`: start from the ε-closure of the start state. -/
def NFAE.validate_string (E : Automaton String) (w : List String) :
    Except RunErr Bool :=
  match nfaeSets E (epsilon_closure E.transitions [E.start_state]) w with
  | .error e => .error e
  | .ok S => .ok (S.any (fun q => decide (q ∈ E.accept_states)))

/-- Embeds `DFA.validate_string`: the lookup `self.transitions[current_state]` is
unguarded (a missing state raises `KeyError`); a present row with no entry for
the symbol returns `False`; `next(iter(next_states))` on an empty destination
set raises `StopIteration`. -/
def runDFA (D : Automaton α) : α → List String → Except RunErr Bool
  | q, [] => .ok (decide (q ∈ D.accept_states))
  | q, c :: w =>
    if c ∈ D.alphabet then
      match alookup D.transitions q with
      | none => .error .keyError
      | some row =>
        match alookup row c with
        | none => .ok false
        | some dests =>
          match dests with
          | [] => .error .stopIteration
          | d :: _ => runDFA D d w
    else .error (.unknownSymbol c)

def DFA.validate_string (D : Automaton α) (w : List String) :
    Except RunErr Bool :=
  runDFA D D.start_state w

/-- Embeds `NFAE.to_nfa`: per-state ε-closure, per-symbol destination union over the
closure, accept states are those whose closure meets the original accepts; the
result is passed through the `NFA` constructor (hence validated). -/
def NFAE.to_nfa (E : Automaton String) : Except VErr (Automaton String) :=
  mkAut
    { states := E.states
      alphabet := E.alphabet.filter (fun a => decide (a ≠ "ε"))
      transitions := E.states.map (fun q =>
        (q, (E.alphabet.filter (fun a => decide (a ≠ "ε"))).map (fun a =>
          (a, stepSucc E.transitions (epsilon_closure E.transitions [q]) a))))
      start_state := E.start_state
      accept_states := E.states.filter (fun q =>
        (epsilon_closure E.transitions [q]).any
          (fun x => decide (x ∈ E.accept_states))) }

/-- Ordered insertion into a sorted list of strings. -/
def sinsert (x : String) : List String → List String
  | [] => [x]
  | y :: ys => if x ≤ y then x :: y :: ys else y :: sinsert x ys

/-- Canonical representation of a Python `frozenset` of strings: duplicates
removed, then sorted, so two member-equal sets get syntactically equal
representatives (`frozenset` equality is set equality). -/
def canonSet (l : List String) : List String :=
  l.dedup.foldr sinsert []

/-- DFA states produced by subset construction mix with the original string
states of the NFA-ε inside the transition destination sets; the two kinds
never compare equal, exactly as a Python `str` never equals a `frozenset`. -/
abbrev V := String ⊕ List String

/-- The `while unmarked_states:` loop of `NFAE.to_dfa`: pop a composite, and
for each non-ε symbol compute the ε-closed successor union, register it if
unseen, and record the transition row entry (`dfa_transitions[current][symbol]
= closure` — the destination recorded is the member set itself). -/
def toDfaLoop (E : Automaton String) :
    Nat → List (List String) → List (List String) →
    List (List String × List (String × List String)) →
    List (List String) × List (List String × List (String × List String))
  | 0, _, seen, tacc => (seen, tacc)
  | _ + 1, [], seen, tacc => (seen, tacc)
  | fuel + 1, current :: rest, seen, tacc =>
    let step := (E.alphabet.filter (fun a => decide (a ≠ "ε"))).foldl
      (fun (acc : List (List String) × List (List String) ×
            List (String × List String)) a =>
        let cl := epsilon_closure E.transitions
          (stepSucc E.transitions current a)
        let comp := canonSet cl
        if comp ∈ acc.1 then (acc.1, acc.2.1, acc.2.2 ++ [(a, comp)])
        else (acc.1 ++ [comp], acc.2.1 ++ [comp], acc.2.2 ++ [(a, comp)]))
      (seen, rest, [])
    toDfaLoop E fuel step.2.1 step.1 (tacc ++ [(current, step.2.2)])

def toDfaFuel (E : Automaton String) : Nat :=
  2 ^ (E.states.length + (transDests E.transitions).length + 1) + 2

/-- Embeds `NFAE.to_dfa`: subset construction followed by the `DFA` constructor.
Composite states enter as `Sum.inr`; the recorded destination sets keep their
member strings (`Sum.inl`), mirroring the source, where
`dfa_transitions[current][symbol]` stores the composite's member `frozenset`
rather than a singleton set containing the composite state. -/
def NFAE.to_dfa (E : Automaton String) : Except VErr (Automaton V) :=
  let startComp := canonSet (epsilon_closure E.transitions [E.start_state])
  let r := toDfaLoop E (toDfaFuel E) [startComp] [startComp] []
  mkDFA
    { states := r.1.map Sum.inr
      alphabet := E.alphabet.filter (fun a => decide (a ≠ "ε"))
      transitions := r.2.map (fun p =>
        (Sum.inr p.1, p.2.map (fun row => (row.1, row.2.map Sum.inl))))
      start_state := Sum.inr startComp
      accept_states := (r.1.filter (fun c =>
        c.any (fun x => decide (x ∈ E.accept_states)))).map Sum.inr }

/-- The literal/operator character set of `_validate_pattern`. -/
def validChars : List Char :=
  "abcdefghijklmnopqrstuvwxyzABCDEFGHIJKLMNOPQRSTUVWXYZ0123456789|*+?().".toList

/-- Embeds `RegularExpression._validate_pattern`: the per-character check runs first
(so an invalid character wins over emptiness), then the emptiness check. -/
def validatePattern (p : String) : Except RErr Unit :=
  match p.toList.find? (fun c => !decide (c ∈ validChars)) with
  | some _ => .error .invalidChar
  | none => if p.toList.isEmpty then .error .emptyPattern else .ok ()

/-- Embeds `new_state()`: fresh identifiers `f"q{next(unique_id)}"` from the shared
incrementing counter. -/
def qState (n : Nat) : String := "q" ++ Nat.repr n

/-- State of `_thompson_construct`: the unique-id counter and the operand
stack of NFA-ε fragments (list head = stack top). -/
structure TState where
  counter : Nat
  stack : List (Automaton String)
deriving DecidableEq

/-- One character of the `for char in sub_pattern` loop of
`_thompson_construct`.  Fragments are built exactly as in the source (dict
literals with `**`-merges become `dmerge`/`dinsert` chains); each `NFAE(...)`
call validates, and a validation error aborts the construction.  `list.pop()`
on an empty stack and `list(accept_states)[0]` on an empty set raise
`IndexError`.  Characters outside the four handled shapes are skipped. -/
def thompsonStep (ts : TState) (c : Char) : Except RErr TState :=
  if c.isAlphanum then
    let s := qState ts.counter
    let e := qState (ts.counter + 1)
    match mkAut
      { states := [s, e]
        alphabet := [c.toString]
        transitions := [(s, [(c.toString, [e])])]
        start_state := s
        accept_states := [e] } with
    | .error err => .error (.automatonError err)
    | .ok A => .ok ⟨ts.counter + 2, A :: ts.stack⟩
  else if c = '*' then
    match ts.stack with
    | [] => .error .indexError
    | nfa :: rest =>
      let s := qState ts.counter
      let e := qState (ts.counter + 1)
      match nfa.accept_states with
      | [] => .error .indexError
      | acc :: _ =>
        match mkAut
          { states := s :: e :: nfa.states
            alphabet := nfa.alphabet
            transitions := dinsert
              (dmerge [(s, [("ε", [nfa.start_state, e])])] nfa.transitions)
              acc [("ε", [nfa.start_state, e])]
            start_state := s
            accept_states := [e] } with
        | .error err => .error (.automatonError err)
        | .ok A => .ok ⟨ts.counter + 2, A :: rest⟩
  else if c = '|' then
    match ts.stack with
    | [] => .error .indexError
    | [_] => .error .indexError
    | nfa2 :: nfa1 :: rest =>
      let s := qState ts.counter
      let e := qState (ts.counter + 1)
      match nfa1.accept_states, nfa2.accept_states with
      | [], _ => .error .indexError
      | _, [] => .error .indexError
      | acc1 :: _, acc2 :: _ =>
        match mkAut
          { states := s :: e :: (nfa1.states ++ nfa2.states)
            alphabet := unionL nfa1.alphabet nfa2.alphabet
            transitions := dinsert (dinsert
              (dmerge (dmerge
                [(s, [("ε", [nfa1.start_state, nfa2.start_state])])]
                nfa1.transitions) nfa2.transitions)
              acc1 [("ε", [e])]) acc2 [("ε", [e])]
            start_state := s
            accept_states := [e] } with
        | .error err => .error (.automatonError err)
        | .ok A => .ok ⟨ts.counter + 2, A :: rest⟩
  else if c = '.' then
    match ts.stack with
    | [] => .error .indexError
    | [_] => .error .indexError
    | nfa2 :: nfa1 :: rest =>
      match nfa1.accept_states with
      | [] => .error .indexError
      | acc1 :: _ =>
        match mkAut
          { states := unionL nfa1.states nfa2.states
            alphabet := unionL nfa1.alphabet nfa2.alphabet
            transitions := dinsert (dmerge nfa1.transitions nfa2.transitions)
              acc1 [("ε", [nfa2.start_state])]
            start_state := nfa1.start_state
            accept_states := nfa2.accept_states } with
        | .error err => .error (.automatonError err)
        | .ok A => .ok ⟨ts.counter, A :: rest⟩
  else .ok ts

/-- The whole `for char in sub_pattern` loop. -/
def thompsonFold : List Char → TState → Except RErr TState
  | [], ts => .ok ts
  | c :: cs, ts =>
    match thompsonStep ts c with
    | .error e => .error e
    | .ok ts' => thompsonFold cs ts'

/-- Embeds `RegularExpression._thompson_construct`: run the loop from an empty stack
and counter 0, then demand exactly one fragment. -/
def thompsonConstruct (p : String) : Except RErr (Automaton String) :=
  match thompsonFold p.toList ⟨0, []⟩ with
  | .error e => .error e
  | .ok ts =>
    match ts.stack with
    | [A] => .ok A
    | _ => .error .invalidPattern

/-- Regex construction overall: `RegularExpression(pattern)` validates the
pattern, `to_nfa_e()` runs Thompson construction. -/
def regexConstruct (p : String) : Except RErr (Automaton String) :=
  match validatePattern p with
  | .error e => .error e
  | .ok _ => thompsonConstruct p

/-- Which construction failures the specification groups under
`MalformedPattern`: the two pattern-validation errors and the final
stack-shape error. -/
def RErr.isMalformedPattern : RErr → Bool
  | .invalidChar => true
  | .emptyPattern => true
  | .invalidPattern => true
  | _ => false

/-- Whether a regex construction attempt failed with `MalformedPattern`. -/
def malformedResult (r : Except RErr (Automaton String)) : Bool :=
  match r with
  | .error e => e.isMalformedPattern
  | .ok _ => false

/-- A valid NFA-ε with one state, one symbol and a self-loop; its epsilon
graph is empty, hence acyclic. -/
def E1 : Automaton String :=
  ⟨["q0"], ["a"], [("q0", [("a", ["q0"])])], "q0", ["q0"]⟩

/-- A valid NFA-ε in which `q1` is entered only through an ε-transition:
`q0 --ε--> q1 --a--> q2`. -/
def E2 : Automaton String :=
  ⟨["q0", "q1", "q2"], ["a"],
   [("q0", [("ε", ["q1"])]), ("q1", [("a", ["q2"])])], "q0", ["q2"]⟩

/-- A valid DFA whose state `q1` has no entry in the transition map. -/
def D0 : Automaton String :=
  ⟨["q0", "q1"], ["a"], [("q0", [("a", ["q1"])])], "q0", ["q1"]⟩

/-- An automaton in which `q1` occurs only as the source of a transition. -/
def A5 : Automaton String :=
  ⟨["q0", "q1"], ["a"], [("q1", [("a", ["q0"])])], "q0", ["q0"]⟩

/-- An automaton whose declared alphabet contains the reserved symbol ε but
whose epsilon graph is empty. -/
def A6 : Automaton String :=
  ⟨["q0", "q1"], ["a", "ε"], [("q0", [("a", ["q1"])])], "q0", ["q1"]⟩

/-- C9: `epsilon_closure` is idempotent — for every transition table and
every seed set `S`, the closure of the closure of `S` has exactly the same
members as the closure of `S`.  (Stated for an arbitrary `Automaton`, so it
covers in particular every valid NFA-ε and every set of its states.) -/
theorem c9_epsilon_closure_idempotent (E : Automaton α) (S : List α) (q : α) :
    q ∈ epsilon_closure E.transitions (epsilon_closure E.transitions S)
      ↔ q ∈ epsilon_closure E.transitions S := by
  constructor
  · intro h
    rcases (mem_epsilon_closure E.transitions _ q).mp h with ⟨p, hp, hpq⟩
    rcases (mem_epsilon_closure E.transitions S p).mp hp with ⟨r, hr, hrp⟩
    exact (mem_epsilon_closure E.transitions S q).mpr ⟨r, hr, hrp.trans hpq⟩
  · intro h
    exact (mem_epsilon_closure E.transitions _ q).mpr
      ⟨q, h, Relation.ReflTransGen.refl⟩

theorem nfaSets_append (N : Automaton α) (u v : List String) :
    ∀ S, nfaSets N S (u ++ v)
      = Except.bind (nfaSets N S u) (fun S' => nfaSets N S' v) := by
  induction u with
  | nil => intro S; simp [nfaSets, Except.bind]
  | cons c cs ih =>
    intro S
    by_cases hc : c ∈ N.alphabet
    · simp only [List.cons_append, nfaSets, if_pos hc]
      exact ih _
    · simp [nfaSets, if_neg hc, Except.bind]

theorem stepSucc_nil (trans : List (α × List (String × List α))) (c : String) :
    stepSucc trans [] c = [] := rfl

theorem nfaSets_nil_all (N : Automaton α) (v : List String)
    (hv : ∀ c ∈ v, c ∈ N.alphabet) : nfaSets N [] v = .ok [] := by
  induction v with
  | nil => rfl
  | cons c cs ih =>
    have hc : c ∈ N.alphabet := hv c (List.mem_cons_self _ _)
    simp only [nfaSets, if_pos hc, stepSucc_nil]
    exact ih (fun d hd => hv d (List.mem_cons_of_mem _ hd))

theorem nfaSets_nil_bad (N : Automaton α) (v : List String)
    (hv : ∃ c ∈ v, c ∉ N.alphabet) :
    ∃ d, d ∈ v ∧ d ∉ N.alphabet
      ∧ nfaSets N [] v = .error (.unknownSymbol d) := by
  induction v with
  | nil => simp at hv
  | cons c cs ih =>
    by_cases hc : c ∈ N.alphabet
    · have hv' : ∃ d ∈ cs, d ∉ N.alphabet := by
        rcases hv with ⟨d, hd, hdn⟩
        rcases List.mem_cons.mp hd with rfl | hd
        · exact absurd hc hdn
        · exact ⟨d, hd, hdn⟩
      rcases ih hv' with ⟨d, hd1, hd2, hd3⟩
      refine ⟨d, List.mem_cons_of_mem _ hd1, hd2, ?_⟩
      simp only [nfaSets, if_pos hc, stepSucc_nil]
      exact hd3
    · exact ⟨c, List.mem_cons_self _ _, hc, by simp [nfaSets, if_neg hc]⟩

/-- C7: in `NFA.validate_string`, once the current-state set has become empty
(after a prefix `u` of the input), every remaining symbol is still checked
against the alphabet — an out-of-alphabet symbol in the suffix still raises
the unknown-symbol error — and when all remaining symbols are in the alphabet
the overall result is rejection (`False`). -/
theorem c7_nfa_empty_set_keeps_checking (N : Automaton α) (u v : List String)
    (h : nfaSets N [N.start_state] u = .ok []) :
    ((∀ c ∈ v, c ∈ N.alphabet) → NFA.validate_string N (u ++ v) = .ok false)
    ∧ (∀ c ∈ v, c ∉ N.alphabet →
        ∃ d, d ∈ v ∧ d ∉ N.alphabet
          ∧ NFA.validate_string N (u ++ v) = .error (.unknownSymbol d)) := by
  constructor
  · intro hv
    unfold NFA.validate_string
    rw [nfaSets_append, h]
    simp [Except.bind, nfaSets_nil_all N v hv]
  · intro c hc hcbad
    rcases nfaSets_nil_bad N v ⟨c, hc, hcbad⟩ with ⟨d, hd1, hd2, hd3⟩
    refine ⟨d, hd1, hd2, ?_⟩
    unfold NFA.validate_string
    rw [nfaSets_append, h]
    simp [Except.bind, hd3]

/-- NFA used to witness C7: reading `b` from `q0` empties the state set. -/
def W7 : Automaton String :=
  ⟨["q0", "q1"], ["a", "b"], [("q0", [("a", ["q1"])])], "q0", ["q1"]⟩

theorem c7_witness :
    ((∀ c ∈ ["a"], c ∈ W7.alphabet) →
        NFA.validate_string W7 (["b"] ++ ["a"]) = .ok false)
    ∧ (∀ c ∈ ["a"], c ∉ W7.alphabet →
        ∃ d, d ∈ ["a"] ∧ d ∉ W7.alphabet
          ∧ NFA.validate_string W7 (["b"] ++ ["a"]) = .error (.unknownSymbol d)) :=
  c7_nfa_empty_set_keeps_checking W7 ["b"] ["a"] (by decide)

theorem nfaSets_ok_of_alphabet (N : Automaton α) (w : List String)
    (hw : ∀ c ∈ w, c ∈ N.alphabet) : ∀ S, ∃ S', nfaSets N S w = .ok S' := by
  induction w with
  | nil => intro S; exact ⟨S, rfl⟩
  | cons c cs ih =>
    intro S
    have hc : c ∈ N.alphabet := hw c (List.mem_cons_self _ _)
    simp only [nfaSets, if_pos hc]
    exact ih (fun d hd => hw d (List.mem_cons_of_mem _ hd)) _

theorem nfaeSets_ok_of_alphabet (E : Automaton String) (w : List String)
    (hw : ∀ c ∈ w, c ∈ E.alphabet) : ∀ S, ∃ S', nfaeSets E S w = .ok S' := by
  induction w with
  | nil => intro S; exact ⟨S, rfl⟩
  | cons c cs ih =>
    intro S
    have hc : c ∈ E.alphabet := hw c (List.mem_cons_self _ _)
    simp only [nfaeSets, if_pos hc]
    exact ih (fun d hd => hw d (List.mem_cons_of_mem _ hd)) _

/-- C10: for any NFA and NFA-ε and inputs whose symbols all lie in the
respective alphabets, `validate_string` returns a boolean and raises nothing:
states missing from the transition map (or rows missing the symbol) simply
contribute no successors. -/
theorem c10_validate_string_total (N : Automaton α) (E : Automaton String)
    (w v : List String)
    (hw : ∀ c ∈ w, c ∈ N.alphabet) (hv : ∀ c ∈ v, c ∈ E.alphabet) :
    (∃ b, NFA.validate_string N w = .ok b)
    ∧ (∃ b, NFAE.validate_string E v = .ok b) := by
  constructor
  · rcases nfaSets_ok_of_alphabet N w hw [N.start_state] with ⟨S', hS'⟩
    exact ⟨_, by unfold NFA.validate_string; rw [hS']⟩
  · rcases nfaeSets_ok_of_alphabet E v hv
        (epsilon_closure E.transitions [E.start_state]) with ⟨S', hS'⟩
    exact ⟨_, by unfold NFAE.validate_string; rw [hS']⟩

/-- NFA used to witness C10. -/
def W10N : Automaton String :=
  ⟨["q0", "q1"], ["a", "b"], [("q0", [("b", ["q1"])])], "q0", ["q1"]⟩

/-- NFA-ε used to witness C10. -/
def W10E : Automaton String :=
  ⟨["q0", "q1"], ["a"], [("q0", [("ε", ["q1"])])], "q0", ["q1"]⟩

theorem c10_witness :
    (∃ b, NFA.validate_string W10N ["a", "b"] = .ok b)
    ∧ (∃ b, NFAE.validate_string W10E ["a", "a"] = .ok b) :=
  c10_validate_string_total W10N W10E ["a", "b"] ["a", "a"]
    (by decide) (by decide)

/-- Modelled from the spec's wording for the unused-state rule: a state is
"used" if it is the source or destination of some transition, the start
state, or an accept state.  (The code's `usedStates` omits sources.) -/
def specUsedStates (A : Automaton α) : List α :=
  A.start_state ::
    (A.accept_states ++ A.transitions.map (fun p => p.1)
      ++ transDests A.transitions)

/-- C5 counterexample: in `A5` every state is used in the claim's sense
(`q1` is the source of a transition), yet construction fails with the
unused-state error. -/
theorem c5_counterexample :
    (∀ q ∈ A5.states, q ∈ specUsedStates A5)
    ∧ validateAutomaton A5 = .error .unusedStates := by decide

/-- C5 (amended): provided the start-state, accept-state and per-transition
checks pass, validation fails with the unused-state error exactly when some
declared state is neither the start state, nor an accept state, nor the
destination of some transition — occurring only as a transition source does
not count as used. -/
theorem c5_amended_unused_iff (A : Automaton α)
    (h1 : A.start_state ∈ A.states)
    (h2 : ∀ q ∈ A.accept_states, q ∈ A.states)
    (h3 : checkTransitions A.states A.alphabet A.transitions = .ok ()) :
    validateAutomaton A = .error .unusedStates
      ↔ ∃ q ∈ A.states, q ∉ usedStates A := by
  unfold validateAutomaton
  rw [if_pos h1, if_pos h2, h3]
  by_cases h4 : ∀ q ∈ A.states, q ∈ usedStates A
  · rw [if_pos h4]
    constructor
    · intro hcontra
      exfalso
      by_cases h5 : ∀ q ∈ A.states, q ∈ findReachable A
      · rw [if_pos h5] at hcontra
        by_cases h6 : "ε" ∈ A.alphabet ∨ ∃ p ∈ A.transitions, ∃ r ∈ p.2, r.1 = "ε"
        · rw [if_pos h6] at hcontra
          cases hhc : hasCircularEps A <;> rw [hhc] at hcontra <;> simp at hcontra
        · rw [if_neg h6] at hcontra
          simp at hcontra
      · rw [if_neg h5] at hcontra
        simp at hcontra
    · rintro ⟨q, hq, hnq⟩
      exact absurd (h4 q hq) hnq
  · rw [if_neg h4]
    push_neg at h4
    exact ⟨fun _ => h4, fun _ => rfl⟩

theorem c5_witness :
    validateAutomaton A5 = .error VErr.unusedStates
      ↔ ∃ q ∈ A5.states, q ∉ usedStates A5 :=
  c5_amended_unused_iff A5 (by decide) (by decide) (by decide)

/-- C6 counterexample: `A6` declares ε in its alphabet, yet construction
succeeds (the validator has no check that ε is absent from the alphabet; the
condition only enables the circular-epsilon check, which passes here). -/
theorem c6_counterexample :
    "ε" ∈ A6.alphabet ∧ validateAutomaton A6 = .ok () := by decide

/-- C6 (amended): when the declared alphabet contains ε and every earlier
check passes, construction does not fail merely because of ε — it succeeds
exactly when the circular-epsilon detector reports no cycle, and fails (with
the circular-epsilon error) exactly when the detector reports one. -/
theorem c6_amended_epsilon_alphabet (A : Automaton α)
    (h1 : A.start_state ∈ A.states)
    (h2 : ∀ q ∈ A.accept_states, q ∈ A.states)
    (h3 : checkTransitions A.states A.alphabet A.transitions = .ok ())
    (h4 : ∀ q ∈ A.states, q ∈ usedStates A)
    (h5 : ∀ q ∈ A.states, q ∈ findReachable A)
    (h6 : "ε" ∈ A.alphabet) :
    (validateAutomaton A = .ok () ↔ hasCircularEps A = false)
    ∧ (validateAutomaton A = .error .circularEpsilon
        ↔ hasCircularEps A = true) := by
  unfold validateAutomaton
  rw [if_pos h1, if_pos h2, h3, if_pos h4, if_pos h5, if_pos (Or.inl h6)]
  cases hhc : hasCircularEps A <;> simp

theorem c6_witness :
    (validateAutomaton A6 = .ok () ↔ hasCircularEps A6 = false)
    ∧ (validateAutomaton A6 = .error VErr.circularEpsilon
        ↔ hasCircularEps A6 = true) :=
  c6_amended_epsilon_alphabet A6 (by decide) (by decide) (by decide)
    (by decide) (by decide) (by decide)

/-- C1: `E1` is a valid NFA-ε with an acyclic (indeed empty) epsilon graph,
yet `to_dfa` does not return a validated DFA — the `DFA` constructor raises,
because the recorded destination of the composite start state under `a` is
the composite's member set `{"q0"}` (strings), which is not a subset of the
DFA's state set (frozensets), so base validation fails with the
next-states-undefined error. -/
theorem c1_to_dfa_fails_validation :
    validateAutomaton E1 = .ok ()
    ∧ hasCircularEps E1 = false
    ∧ NFAE.to_dfa E1 = .error .nextStatesUndefined := by decide

/-- C2: `E2` is a valid NFA-ε accepting `"a"`, but `E2.to_nfa()` raises
(state `q1`, reachable only through ε, is no destination of the rewritten
transitions and is dropped from use, so the `NFA` constructor fails with the
unused-state error), contradicting "both conversions succeed on every valid
NFA-ε". -/
theorem c2_to_nfa_fails :
    validateAutomaton E2 = .ok ()
    ∧ NFAE.validate_string E2 ["a"] = .ok true
    ∧ NFAE.to_nfa E2 = .error .unusedStates
    ∧ NFAE.to_dfa E1 = .error VErr.nextStatesUndefined := by decide

/-- C3: `D0` is a valid DFA and `"aa"` uses only alphabet symbols, yet
`validate_string` raises `KeyError` at the second symbol because state `q1`
has no entry in the transition map and the lookup
`self.transitions[current_state]` is unguarded — instead of returning
`False`. -/
theorem c3_missing_state_keyerror :
    mkDFA D0 = .ok D0
    ∧ (∀ c ∈ ["a", "a"], c ∈ D0.alphabet)
    ∧ DFA.validate_string D0 ["a", "a"] = .error .keyError := by decide

theorem validatePattern_eq (p : String) :
    validatePattern p =
      if ∃ c ∈ p.toList, c ∉ validChars then .error .invalidChar
      else if p.toList = [] then .error .emptyPattern
      else .ok () := by
  unfold validatePattern
  rcases hf : p.toList.find? (fun c => !decide (c ∈ validChars)) with _ | c
  · have hnone := List.find?_eq_none.mp hf
    have hno : ¬ ∃ c ∈ p.toList, c ∉ validChars := by
      rintro ⟨c, hc, hcv⟩
      exact absurd (by simpa using hnone c hc) hcv
    rw [if_neg hno]
    by_cases he : p.toList = []
    · simp [he]
    · simp [he, List.isEmpty_iff]
  · have hmem := List.mem_of_find?_eq_some hf
    have hpred := List.find?_some hf
    have hex : ∃ d ∈ p.toList, d ∉ validChars := ⟨c, hmem, by simpa using hpred⟩
    rw [if_pos hex]

theorem thompsonStep_error_class (ts : TState) (c : Char) (e : RErr)
    (h : thompsonStep ts c = .error e) :
    e = .indexError ∨ ∃ v, e = .automatonError v := by
  unfold thompsonStep at h
  dsimp only at h
  split at h
  · split at h
    · cases h; exact Or.inr ⟨_, rfl⟩
    · cases h
  · split at h
    · split at h
      · cases h; exact Or.inl rfl
      · split at h
        · cases h; exact Or.inl rfl
        · split at h
          · cases h; exact Or.inr ⟨_, rfl⟩
          · cases h
    · split at h
      · split at h
        · cases h; exact Or.inl rfl
        · cases h; exact Or.inl rfl
        · split at h
          · cases h; exact Or.inl rfl
          · cases h; exact Or.inl rfl
          · split at h
            · cases h; exact Or.inr ⟨_, rfl⟩
            · cases h
      · split at h
        · split at h
          · cases h; exact Or.inl rfl
          · cases h; exact Or.inl rfl
          · split at h
            · cases h; exact Or.inl rfl
            · split at h
              · cases h; exact Or.inr ⟨_, rfl⟩
              · cases h
        · cases h

theorem thompsonFold_error_class (cs : List Char) :
    ∀ ts e, thompsonFold cs ts = .error e →
      e = .indexError ∨ ∃ v, e = .automatonError v := by
  induction cs with
  | nil => intro ts e h; cases h
  | cons c cs ih =>
    intro ts e h
    unfold thompsonFold at h
    rcases hstep : thompsonStep ts c with e' | ts'
    · rw [hstep] at h
      have he : e' = e := by injection h
      exact he ▸ thompsonStep_error_class ts c e' hstep
    · rw [hstep] at h
      exact ih ts' e h

/-- C4 counterexample: on the pattern `"*"` (nonempty, all characters in the
declared set, and — in the claim's terms — "too many operators"), construction
fails with the `IndexError` of `stack.pop()` on an empty list, which is not
the `MalformedPattern` error. -/
theorem c4_counterexample :
    regexConstruct "*" = .error .indexError
    ∧ RErr.isMalformedPattern .indexError = false
    ∧ ("*".toList ≠ [] ∧ ∀ c ∈ "*".toList, c ∈ validChars) := by decide

/-- C4 (amended): construction fails with `MalformedPattern` iff the pattern
is empty, contains a character outside the declared set, or the character
loop completes — every pop finds an operand and every intermediate `NFAE`
constructor succeeds — leaving a stack of size ≠ 1.  Operand-stack underflow
instead raises `IndexError`, and fragment-validation failures raise the
corresponding automaton error, neither of which is `MalformedPattern`. -/
theorem c4_amended_malformed_iff (p : String) :
    malformedResult (regexConstruct p) = true ↔
      (p.toList = [] ∨ (∃ c ∈ p.toList, c ∉ validChars) ∨
        (∃ ts, thompsonFold p.toList ⟨0, []⟩ = .ok ts
          ∧ ts.stack.length ≠ 1)) := by
  unfold regexConstruct
  rw [validatePattern_eq]
  by_cases hbad : ∃ c ∈ p.toList, c ∉ validChars
  · rw [if_pos hbad]
    simp only [malformedResult, RErr.isMalformedPattern]
    exact ⟨fun _ => Or.inr (Or.inl hbad), fun _ => trivial⟩
  · rw [if_neg hbad]
    by_cases hnil : p.toList = []
    · rw [if_pos hnil]
      simp only [malformedResult, RErr.isMalformedPattern]
      exact ⟨fun _ => Or.inl hnil, fun _ => trivial⟩
    · rw [if_neg hnil]
      dsimp only
      unfold thompsonConstruct
      rcases hfold : thompsonFold p.toList ⟨0, []⟩ with e | ts
      · have hclass := thompsonFold_error_class p.toList ⟨0, []⟩ e hfold
        dsimp only
        constructor
        · intro hmal
          exfalso
          rcases hclass with rfl | ⟨v, rfl⟩ <;>
            simp [malformedResult, RErr.isMalformedPattern] at hmal
        · rintro (h | h | ⟨ts, hts, _⟩)
          · exact absurd h hnil
          · exact absurd h hbad
          · simp at hts
      · dsimp only
        rcases hstack : ts.stack with _ | ⟨A, rest⟩
        · simp only [malformedResult, RErr.isMalformedPattern]
          refine ⟨fun _ => Or.inr (Or.inr ⟨ts, rfl, ?_⟩), fun _ => trivial⟩
          rw [hstack]
          simp
        · rcases rest with _ | ⟨B, rest2⟩
          · simp only [malformedResult]
            constructor
            · intro hmal
              exact absurd hmal (by simp)
            · rintro (h | h | ⟨ts', hts', hlen⟩)
              · exact absurd h hnil
              · exact absurd h hbad
              · have hts'' : ts = ts' := by injection hts'
                rw [← hts'', hstack] at hlen
                simp at hlen
          · simp only [malformedResult, RErr.isMalformedPattern]
            refine ⟨fun _ => Or.inr (Or.inr ⟨ts, rfl, ?_⟩), fun _ => trivial⟩
            rw [hstack]
            simp

theorem toDigitsCore_digits (f : Nat) :
    ∀ (n : Nat) (acc : List Char), n ≠ 0 → n < f →
      Nat.toDigitsCore 10 f n acc
        = ((Nat.digits 10 n).map Nat.digitChar).reverse ++ acc := by
  induction f with
  | zero => intro n acc h0 hf; omega
  | succ f ih =>
    intro n acc h0 hf
    have hdig : Nat.digits 10 n = n % 10 :: Nat.digits 10 (n / 10) :=
      Nat.digits_def' (by norm_num) (Nat.pos_of_ne_zero h0)
    by_cases hq : n / 10 = 0
    · simp only [Nat.toDigitsCore, hq, if_pos, hdig, Nat.digits_zero,
        List.map_cons, List.map_nil, List.reverse_cons, List.reverse_nil,
        List.nil_append, List.singleton_append]
    · have hlt : n / 10 < f := by
        have h1 : n / 10 < n := Nat.div_lt_self (Nat.pos_of_ne_zero h0) (by norm_num)
        omega
      simp only [Nat.toDigitsCore, hq, if_neg, if_false]
      rw [ih (n / 10) _ hq hlt, hdig]
      simp [List.append_assoc]

theorem toDigits_digits (n : Nat) (h0 : n ≠ 0) :
    Nat.toDigits 10 n = ((Nat.digits 10 n).map Nat.digitChar).reverse := by
  unfold Nat.toDigits
  rw [toDigitsCore_digits (n + 1) n [] h0 (by omega)]
  simp

theorem digitChar_inj_lt :
    ∀ a, a < 10 → ∀ b, b < 10 → Nat.digitChar a = Nat.digitChar b → a = b := by
  decide

theorem map_digitChar_inj :
    ∀ (l1 l2 : List Nat), (∀ d ∈ l1, d < 10) → (∀ d ∈ l2, d < 10) →
      l1.map Nat.digitChar = l2.map Nat.digitChar → l1 = l2 := by
  intro l1
  induction l1 with
  | nil => intro l2 _ _ h; cases l2 <;> simp_all
  | cons a as ih =>
    intro l2 h1 h2 h
    cases l2 with
    | nil => simp at h
    | cons b bs =>
      simp only [List.map_cons, List.cons.injEq] at h
      have hab : a = b :=
        digitChar_inj_lt a (h1 a (List.mem_cons_self _ _))
          b (h2 b (List.mem_cons_self _ _)) h.1
      have hrest : as = bs :=
        ih bs (fun d hd => h1 d (List.mem_cons_of_mem _ hd))
          (fun d hd => h2 d (List.mem_cons_of_mem _ hd)) h.2
      rw [hab, hrest]

theorem digits_map_eq (m n : Nat)
    (h : (Nat.digits 10 m).map Nat.digitChar = (Nat.digits 10 n).map Nat.digitChar) :
    m = n := by
  have hdm : ∀ d ∈ Nat.digits 10 m, d < 10 :=
    fun d hd => Nat.digits_lt_base (by norm_num) hd
  have hdn : ∀ d ∈ Nat.digits 10 n, d < 10 :=
    fun d hd => Nat.digits_lt_base (by norm_num) hd
  have hdig := map_digitChar_inj _ _ hdm hdn h
  calc m = Nat.ofDigits 10 (Nat.digits 10 m) := (Nat.ofDigits_digits 10 m).symm
    _ = Nat.ofDigits 10 (Nat.digits 10 n) := by rw [hdig]
    _ = n := Nat.ofDigits_digits 10 n

theorem toDigits_nonzero_ne_zero (n : Nat) (h0 : n ≠ 0) :
    Nat.toDigits 10 n ≠ Nat.toDigits 10 0 := by
  intro hcontra
  rw [toDigits_digits n h0] at hcontra
  have h0eq : Nat.toDigits 10 0 = ['0'] := rfl
  rw [h0eq] at hcontra
  have hrev := congrArg List.reverse hcontra
  simp only [List.reverse_reverse] at hrev
  have : Nat.digits 10 n = [0] := by
    have hd : ∀ d ∈ Nat.digits 10 n, d < 10 :=
      fun d hd => Nat.digits_lt_base (by norm_num) hd
    refine map_digitChar_inj _ [0] hd (by simp) ?_
    rw [hrev]
    rfl
  have hofd := Nat.ofDigits_digits 10 n
  rw [this] at hofd
  have hzero : (Nat.ofDigits 10 [0] : ℕ) = 0 := by simp [Nat.ofDigits]
  rw [hzero] at hofd
  exact h0 hofd.symm

theorem toDigits_ten_inj (m n : Nat) (h : Nat.toDigits 10 m = Nat.toDigits 10 n) :
    m = n := by
  by_cases hm : m = 0
  · by_cases hn : n = 0
    · rw [hm, hn]
    · subst hm
      exact absurd h.symm (toDigits_nonzero_ne_zero n hn)
  · by_cases hn : n = 0
    · subst hn
      exact absurd h (toDigits_nonzero_ne_zero m hm)
    · rw [toDigits_digits m hm, toDigits_digits n hn] at h
      exact digits_map_eq m n (List.reverse_injective h)

theorem qState_inj (m n : Nat) (h : qState m = qState n) : m = n := by
  unfold qState at h
  have hdata := congrArg String.data h
  simp only [String.data_append] at hdata
  have hrepr : (Nat.repr m).data = (Nat.repr n).data := by
    have := List.append_cancel_left hdata
    exact this
  have htd : Nat.toDigits 10 m = Nat.toDigits 10 n := hrepr
  exact toDigits_ten_inj m n htd

/-- The identifiers the counter has already handed out. -/
def qRange (n : Nat) : List String := (List.range n).map qState

theorem mem_qRange {q : String} {n : Nat} :
    q ∈ qRange n ↔ ∃ k, k < n ∧ qState k = q := by
  simp [qRange, List.mem_map, List.mem_range]

theorem qRange_subset {m n : Nat} (h : m ≤ n) :
    ∀ q ∈ qRange m, q ∈ qRange n := by
  intro q hq
  rcases mem_qRange.mp hq with ⟨k, hk, rfl⟩
  exact mem_qRange.mpr ⟨k, by omega, rfl⟩

theorem qState_not_mem_qRange {k n : Nat} (hkn : n ≤ k) :
    qState k ∉ qRange n := by
  intro hc
  rcases mem_qRange.mp hc with ⟨j, hj, hji⟩
  have := qState_inj j k hji
  omega

theorem mem_unionL {l1 l2 : List α} {x : α} :
    x ∈ unionL l1 l2 ↔ x ∈ l1 ∨ x ∈ l2 := by
  simp only [unionL, List.mem_append, List.mem_filter, Bool.not_eq_true',
    decide_eq_false_iff_not]
  by_cases h : x ∈ l1 <;> simp [h]

theorem mkAut_ok (A B : Automaton α) (h : mkAut A = .ok B) : B = A := by
  unfold mkAut at h
  split at h
  · cases h
  · injection h with h; exact h.symm

/-- Invariant of the Thompson operand stack: every fragment state identifier
was handed out by the counter, and distinct fragments never share a state
identifier. -/
def TInv (ts : TState) : Prop :=
  (∀ A ∈ ts.stack, ∀ q ∈ A.states, q ∈ qRange ts.counter)
  ∧ ts.stack.Pairwise (fun A B => ∀ q ∈ A.states, q ∉ B.states)

/-- C8 (amended): each successful literal, star, or union step of Thompson
construction consumes exactly two fresh state identifiers, while a successful
concatenation step consumes none; in all cases the stack invariant is
preserved — every fragment state is a previously issued `q<i>` identifier and
no identifier occurs in two distinct stack fragments. -/
theorem c8_amended_fresh_ids (ts : TState) (c : Char) (ts' : TState)
    (hinv : TInv ts) (hstep : thompsonStep ts c = .ok ts') :
    TInv ts'
    ∧ ((c.isAlphanum = true ∨ c = '*' ∨ c = '|') →
        ts'.counter = ts.counter + 2)
    ∧ (c = '.' → ts'.counter = ts.counter) := by
  rcases hinv with ⟨hrange, hdisj⟩
  unfold thompsonStep at hstep
  dsimp only at hstep
  split at hstep
  · -- literal branch
    rename_i halnum
    split at hstep
    · cases hstep
    · rename_i A heq
      have hA := mkAut_ok _ _ heq
      injection hstep with hts'
      subst hts'
      subst hA
      dsimp only
      refine ⟨⟨?_, ?_⟩, ?_, ?_⟩
      · intro B hB q hq
        rcases List.mem_cons.mp hB with rfl | hB
        · rcases List.mem_cons.mp hq with rfl | hq
          · exact mem_qRange.mpr ⟨ts.counter, by show ts.counter < ts.counter + 2; omega, rfl⟩
          · rcases List.mem_singleton.mp hq with rfl
            exact mem_qRange.mpr ⟨ts.counter + 1, by show ts.counter + 1 < ts.counter + 2; omega, rfl⟩
        · exact qRange_subset (by show ts.counter ≤ ts.counter + 2; omega) q (hrange B hB q hq)
      · refine List.pairwise_cons.mpr ⟨?_, hdisj⟩
        intro B hB q hq hqB
        have hqr := hrange B hB q hqB
        rcases List.mem_cons.mp hq with rfl | hq
        · exact qState_not_mem_qRange (le_refl _) hqr
        · rcases List.mem_singleton.mp hq with rfl
          exact qState_not_mem_qRange (by omega) hqr
      · intro _; rfl
      · intro hdot
        subst hdot
        exact absurd halnum (by decide)
  · rename_i hnal
    split at hstep
    · -- star branch
      rename_i hstar
      split at hstep
      · cases hstep
      · rename_i nfa rest hstack
        split at hstep
        · cases hstep
        · rename_i acc tl hacc
          split at hstep
          · cases hstep
          · rename_i A heq
            have hA := mkAut_ok _ _ heq
            injection hstep with hts'
            subst hts'
            subst hA
            dsimp only
            have hnfa_mem : nfa ∈ ts.stack := by
              rw [hstack]; exact List.mem_cons_self _ _
            have hrest_sub : ∀ B ∈ rest, B ∈ ts.stack := by
              intro B hB; rw [hstack]; exact List.mem_cons_of_mem _ hB
            have hdisj' := hstack ▸ hdisj
            have hn := List.pairwise_cons.mp hdisj'
            refine ⟨⟨?_, ?_⟩, ?_, ?_⟩
            · intro B hB q hq
              rcases List.mem_cons.mp hB with rfl | hB
              · rcases List.mem_cons.mp hq with rfl | hq
                · exact mem_qRange.mpr ⟨ts.counter, by show ts.counter < ts.counter + 2; omega, rfl⟩
                · rcases List.mem_cons.mp hq with rfl | hq
                  · exact mem_qRange.mpr ⟨ts.counter + 1, by show ts.counter + 1 < ts.counter + 2; omega, rfl⟩
                  · exact qRange_subset (by show ts.counter ≤ ts.counter + 2; omega) q (hrange nfa hnfa_mem q hq)
              · exact qRange_subset (by show ts.counter ≤ ts.counter + 2; omega) q (hrange B (hrest_sub B hB) q hq)
            · refine List.pairwise_cons.mpr ⟨?_, hn.2⟩
              intro B hB q hq hqB
              have hqr := hrange B (hrest_sub B hB) q hqB
              rcases List.mem_cons.mp hq with rfl | hq
              · exact qState_not_mem_qRange (le_refl _) hqr
              · rcases List.mem_cons.mp hq with rfl | hq
                · exact qState_not_mem_qRange (by omega) hqr
                · exact hn.1 B hB q hq hqB
            · intro _; rfl
            · intro hdot
              subst hdot
              exact absurd hstar (by decide)
    · rename_i hnst
      split at hstep
      · -- union branch
        rename_i hunion
        split at hstep
        · cases hstep
        · cases hstep
        · rename_i nfa2 nfa1 rest hstack
          split at hstep
          · cases hstep
          · cases hstep
          · rename_i acc1 tl1 acc2 tl2 hacc1 hacc2
            split at hstep
            · cases hstep
            · rename_i A heq
              have hA := mkAut_ok _ _ heq
              injection hstep with hts'
              subst hts'
              subst hA
              dsimp only
              have h2mem : nfa2 ∈ ts.stack := by
                rw [hstack]; exact List.mem_cons_self _ _
              have h1mem : nfa1 ∈ ts.stack := by
                rw [hstack]; exact List.mem_cons_of_mem _ (List.mem_cons_self _ _)
              have hrest_sub : ∀ B ∈ rest, B ∈ ts.stack := by
                intro B hB
                rw [hstack]
                exact List.mem_cons_of_mem _ (List.mem_cons_of_mem _ hB)
              have hdisj' := hstack ▸ hdisj
              have hp2 := List.pairwise_cons.mp hdisj'
              have hp1 := List.pairwise_cons.mp hp2.2
              refine ⟨⟨?_, ?_⟩, ?_, ?_⟩
              · intro B hB q hq
                rcases List.mem_cons.mp hB with rfl | hB
                · rcases List.mem_cons.mp hq with rfl | hq
                  · exact mem_qRange.mpr ⟨ts.counter, by show ts.counter < ts.counter + 2; omega, rfl⟩
                  · rcases List.mem_cons.mp hq with rfl | hq
                    · exact mem_qRange.mpr ⟨ts.counter + 1, by show ts.counter + 1 < ts.counter + 2; omega, rfl⟩
                    · rcases List.mem_append.mp hq with hq | hq
                      · exact qRange_subset (by show ts.counter ≤ ts.counter + 2; omega) q (hrange nfa1 h1mem q hq)
                      · exact qRange_subset (by show ts.counter ≤ ts.counter + 2; omega) q (hrange nfa2 h2mem q hq)
                · exact qRange_subset (by show ts.counter ≤ ts.counter + 2; omega) q (hrange B (hrest_sub B hB) q hq)
              · refine List.pairwise_cons.mpr ⟨?_, hp1.2⟩
                intro B hB q hq hqB
                have hqr := hrange B (hrest_sub B hB) q hqB
                rcases List.mem_cons.mp hq with rfl | hq
                · exact qState_not_mem_qRange (le_refl _) hqr
                · rcases List.mem_cons.mp hq with rfl | hq
                  · exact qState_not_mem_qRange (by omega) hqr
                  · rcases List.mem_append.mp hq with hq | hq
                    · exact hp1.1 B hB q hq hqB
                    · exact hp2.1 B (List.mem_cons_of_mem _ hB) q hq hqB
              · intro _; rfl
              · intro hdot
                subst hdot
                exact absurd hunion (by decide)
      · rename_i hnun
        split at hstep
        · -- concatenation branch
          rename_i hdotc
          split at hstep
          · cases hstep
          · cases hstep
          · rename_i nfa2 nfa1 rest hstack
            split at hstep
            · cases hstep
            · rename_i acc1 tl1 hacc1
              split at hstep
              · cases hstep
              · rename_i A heq
                have hA := mkAut_ok _ _ heq
                injection hstep with hts'
                subst hts'
                subst hA
                dsimp only
                have h2mem : nfa2 ∈ ts.stack := by
                  rw [hstack]; exact List.mem_cons_self _ _
                have h1mem : nfa1 ∈ ts.stack := by
                  rw [hstack]; exact List.mem_cons_of_mem _ (List.mem_cons_self _ _)
                have hrest_sub : ∀ B ∈ rest, B ∈ ts.stack := by
                  intro B hB
                  rw [hstack]
                  exact List.mem_cons_of_mem _ (List.mem_cons_of_mem _ hB)
                have hdisj' := hstack ▸ hdisj
                have hp2 := List.pairwise_cons.mp hdisj'
                have hp1 := List.pairwise_cons.mp hp2.2
                refine ⟨⟨?_, ?_⟩, ?_, ?_⟩
                · intro B hB q hq
                  rcases List.mem_cons.mp hB with rfl | hB
                  · rcases mem_unionL.mp hq with hq | hq
                    · exact hrange nfa1 h1mem q hq
                    · exact hrange nfa2 h2mem q hq
                  · exact hrange B (hrest_sub B hB) q hq
                · refine List.pairwise_cons.mpr ⟨?_, hp1.2⟩
                  intro B hB q hq hqB
                  rcases mem_unionL.mp hq with hq | hq
                  · exact hp1.1 B hB q hq hqB
                  · exact hp2.1 B (List.mem_cons_of_mem _ hB) q hq hqB
                · intro hor
                  rcases hor with hor | hor | hor
                  · exact absurd hor hnal
                  · exact absurd hor hnst
                  · exact absurd hor hnun
                · intro _; rfl
        · -- skipped character: state unchanged
          rename_i hndot
          injection hstep with hts'
          subst hts'
          refine ⟨⟨hrange, hdisj⟩, ?_, ?_⟩
          · intro hor
            rcases hor with hor | hor | hor
            · exact absurd hor hnal
            · exact absurd hor hnst
            · exact absurd hor hnun
          · intro hdot
            exact absurd hdot hndot

/-- The Thompson state after reading the single literal `a`. -/
def W8 : TState :=
  ⟨2, [⟨["q0", "q1"], ["a"], [("q0", [("a", ["q1"])])], "q0", ["q1"]⟩]⟩

theorem c8_witness :
    TInv W8
    ∧ (('a'.isAlphanum = true ∨ 'a' = '*' ∨ 'a' = '|') →
        W8.counter = (⟨0, []⟩ : TState).counter + 2)
    ∧ ('a' = '.' → W8.counter = (⟨0, []⟩ : TState).counter) := by
  have hinv0 : TInv ⟨0, []⟩ := ⟨by simp, List.Pairwise.nil⟩
  have hstep0 : thompsonStep ⟨0, []⟩ 'a' = .ok W8 := by decide
  exact c8_amended_fresh_ids ⟨0, []⟩ 'a' W8 hinv0 hstep0

/-- C8 counterexample: processing `"ab"` issues ids `q0..q3` (counter 4);
the subsequent concatenation step of `"ab."` succeeds but issues no new
identifier (counter still 4), although the claim demands exactly two fresh
identifiers for every rule, concatenation included (which would give 6). -/
theorem c8_counterexample :
    (thompsonFold "ab".toList ⟨0, []⟩).map TState.counter = .ok 4
    ∧ (thompsonFold "ab.".toList ⟨0, []⟩).map TState.counter = .ok 4 := by
  decide
